import Mathlib

/-! # EasyMart: shallow embedding and verification

Embeds the Salesforce adapter (cart service, product search pagination,
Apex CartApi) and the hybrid retrieval engine (RRF rank fusion and MMR
diversification) of the EasyMart repository, and proves the specified
properties about them. -/

namespace EasyMart

/-! ## Cart service
Embedding of src/backend-node/src/modules/salesforce_adapter/cart.ts. -/

/-- JavaScript `a || b` for an optional numeric field: `0` is falsy. -/
def jsOrQ : Option ℚ → ℚ → ℚ
  | none, b => b
  | some a, b => if a = 0 then b else a

/-- JavaScript `a || b` for an optional string field: `""` is falsy. -/
def jsOrS : Option String → String → String
  | none, b => b
  | some a, b => if a = "" then b else a

/-- A raw cart line as returned by the remote Salesforce endpoint
(`data.items || data.lines`), before normalization in `getCart`. -/
structure RawCartLine where
  cartItemId : Option String
  rawId : Option String
  cartItemIdC : Option String
  productId : Option String
  productIdC : Option String
  name : Option String
  productName : Option String
  qty : Option ℚ
  quantity : Option ℚ
  qtyC : Option ℚ
  price : Option ℚ
  imageUrl : Option String
  image : Option String

/-- `CartItem` of cart.ts. -/
structure CartItem where
  id : String
  productId : String
  title : String
  quantity : ℚ
  price : ℚ
  image : String
deriving DecidableEq

/-- `Cart` of cart.ts. -/
structure Cart where
  id : String
  items : List CartItem
  totalQuantity : ℚ
  totalPrice : ℚ
deriving DecidableEq

/-- The per-line normalization done inside `CartService.getCart`
(the `.map` over `data.items || data.lines`). `price` in the source is
`typeof l.price === "number" ? l.price : parseFloat(l.price || "0")`;
a missing price parses to `0`. -/
def normalizeCartLine (l : RawCartLine) : CartItem :=
  { id := jsOrS l.cartItemId (jsOrS l.rawId (jsOrS l.cartItemIdC ""))
    productId := jsOrS l.productId (jsOrS l.productIdC "")
    title := jsOrS l.name (jsOrS l.productName "")
    quantity := jsOrQ l.qty (jsOrQ l.quantity (jsOrQ l.qtyC 0))
    price := l.price.getD 0
    image := jsOrS l.imageUrl (jsOrS l.image "") }

/-- `CartService.getCart`: normalizes the remote lines and computes the
two totals with the source's `reduce` calls
(`items.reduce((s, i) => s + (i.quantity || 0), 0)` and
`items.reduce((s, i) => s + (i.price || 0) * (i.quantity || 0), 0)`). -/
def CartService.getCart (cartId : String) (lines : List RawCartLine) : Cart :=
  let items := lines.map normalizeCartLine
  { id := cartId
    items := items
    totalQuantity := items.foldl (fun s i => s + jsOrQ (some i.quantity) 0) 0
    totalPrice := items.foldl (fun s i => s + jsOrQ (some i.price) 0 * jsOrQ (some i.quantity) 0) 0 }

/-- The remote commerce backend, abstracted: each mutation returns the new
remote state, and a state can be asked for the current cart id and lines of
a buyer account.  The adapter never inspects this state other than through
`getCart`. -/
structure RemoteCommerce where
  cartIdOf : String → String
  linesOf : String → List RawCartLine
  afterAddItem : String → String → ℚ → RemoteCommerce
  afterUpdateItem : String → String → ℚ → RemoteCommerce
  afterRemoveItem : String → String → RemoteCommerce

/-- `CartService.getCart(buyerAccountId)` against a remote state. -/
def CartService.getCartOf (srv : RemoteCommerce) (buyerAccountId : String) : Cart :=
  CartService.getCart (srv.cartIdOf buyerAccountId) (srv.linesOf buyerAccountId)

/-- `CartService.addToCart`: posts `addItem`, then returns `this.getCart(buyerAccountId)`. -/
def CartService.addToCart (srv : RemoteCommerce) (productId : String) (quantity : ℚ)
    (buyerAccountId : String) : Cart :=
  CartService.getCartOf (srv.afterAddItem buyerAccountId productId quantity) buyerAccountId

/-- `CartService.updateCartItem`: posts `updateItem`, then returns `this.getCart(buyerAccountId)`. -/
def CartService.updateCartItem (srv : RemoteCommerce) (cartItemId : String) (quantity : ℚ)
    (buyerAccountId : String) : Cart :=
  CartService.getCartOf (srv.afterUpdateItem buyerAccountId cartItemId quantity) buyerAccountId

/-- `CartService.removeFromCart`: posts `removeItem`, then returns `this.getCart(buyerAccountId)`. -/
def CartService.removeFromCart (srv : RemoteCommerce) (cartItemId : String)
    (buyerAccountId : String) : Cart :=
  CartService.getCartOf (srv.afterRemoveItem buyerAccountId cartItemId) buyerAccountId

/-- The cart totals invariant: `totalQuantity` is the sum of the item
quantities and `totalPrice` the sum of price times quantity. -/
def cartInvariant (c : Cart) : Prop :=
  c.totalQuantity = (c.items.map CartItem.quantity).sum ∧
    c.totalPrice = (c.items.map (fun i => i.price * i.quantity)).sum

/-! ## ProductService.search
Embedding of the paginated search in
src/backend-node/src/modules/salesforce_adapter/products.ts
(src/unnamed/part_013, lines 33-88).  The claims concern the pagination
loop and its id-based deduplication; `normalize` only produces the records
the loop inspects through their `id`, so pages are modelled as lists of
already-normalized products. -/

/-- The normalized `Product` shape of products.ts (fields beyond `id` and
`title` do not influence the loop and are omitted from the model). -/
structure SFProduct where
  id : String
  title : String
deriving DecidableEq

/-- One response of the internal `/internal/salesforce/search` endpoint:
`data.results` and the optional `data.total`. -/
structure SearchPage where
  results : List SFProduct
  total : Option Nat

/-- `pageSize = Math.min(PAGE_SIZE, Math.max(1, limit > PAGE_SIZE ? PAGE_SIZE : limit))`
with `PAGE_SIZE = 50`. -/
def pageSizeOf (limit : Nat) : Nat :=
  min 50 (max 1 (if limit > 50 then 50 else limit))

/-- The inner `for (const p of items)` loop: skip an already `seen` id,
otherwise record the id and push the product, stopping as soon as `out`
reaches `limit`.  Returns the updated `(seen, out)`. -/
def scanItems (limit : Nat) : List SFProduct → List String → List SFProduct →
    List String × List SFProduct
  | [], seen, out => (seen, out)
  | p :: rest, seen, out =>
    if p.id ∈ seen then scanItems limit rest seen out
    else if limit ≤ (out ++ [p]).length then (p.id :: seen, out ++ [p])
    else scanItems limit rest (p.id :: seen) (out ++ [p])

/-- The two `break` conditions checked after scanning a page:
`total !== undefined && page * pageSize >= total`, then
`items.length < pageSize`. -/
def pageStops (resp : SearchPage) (page pageSize : Nat) : Bool :=
  (match resp.total with
    | some total => decide (total ≤ page * pageSize)
    | none => false) || decide (resp.results.length < pageSize)

/-- The outer `while (out.length < limit)` loop of `ProductService.search`.
The remote backend is a function from the 1-based page number to a page.
The source loop can run forever against a misbehaving backend (full pages
of only duplicate ids and no `total`), so the model carries explicit fuel
and returns the accumulated output when the fuel runs out. -/
def searchPages (backend : Nat → SearchPage) (limit pageSize : Nat) :
    Nat → Nat → List String → List SFProduct → List SFProduct
  | 0, _, _, out => out
  | fuel + 1, page, seen, out =>
    if out.length < limit then
      if (backend page).results = [] then out
      else
        let sc := scanItems limit (backend page).results seen out
        if pageStops (backend page) page pageSize then sc.2
        else searchPages backend limit pageSize fuel (page + 1) sc.1 sc.2
    else out

/-- `ProductService.search(query, limit)`: pages through the internal
search endpoint starting at page 1 with empty `seen` and `out`. -/
def ProductService.search (backend : String → Nat → SearchPage) (query : String)
    (limit fuel : Nat) : List SFProduct :=
  searchPages (backend query) limit (pageSizeOf limit) fuel 1 [] []

/-- First-occurrence deduplication by id, relative to already-seen ids. -/
def dedupFirst : List SFProduct → List String → List SFProduct
  | [], _ => []
  | p :: rest, seen =>
    if p.id ∈ seen then dedupFirst rest seen
    else p :: dedupFirst rest (p.id :: seen)

/-- A backend serving the whole catalog as a single page. -/
def onePageBackend (l : List SFProduct) : String → Nat → SearchPage :=
  fun _ _ => { results := l, total := some l.length }

/-! ## Apex CartApi.updateCartItem
Embedding of the `@HttpPatch` handler in
src/backend-node/src/modules/salesforce_adapter/index.ts (lines 196-272). -/

/-- Apex `String.isBlank`: null, empty or whitespace only.  The request
field is an `Option` to model a JSON `null`. -/
def apexIsBlank : Option String → Bool
  | none => true
  | some s => s.data.all (fun c => c.isWhitespace)

/-- `UpdateCartItemRequest` of the Apex handler. -/
structure UpdateCartItemRequest where
  cartItemId : Option String
  quantity : Option Int

/-- `UpdateCartItemResponse` of the Apex handler. -/
structure UpdateCartItemResponse where
  success : Bool
  statusCode : Nat
  message : String
  cartItemId : Option String
  quantity : Option Int
deriving DecidableEq

/-- The branch logic of `CartApi.updateCartItem`: blank `cartItemId` is a
400 client error; `quantity == null || quantity <= 0` deletes the cart item
and reports `Item removed`; a positive quantity updates the item in place
and reports `Item updated`.  The Salesforce ConnectApi side effects are not
modelled; this captures the response construction on the non-exception path. -/
def CartApi.updateCartItem (req : UpdateCartItemRequest) : UpdateCartItemResponse :=
  if apexIsBlank req.cartItemId then
    { success := false, statusCode := 400, message := "cartItemId is required"
      cartItemId := none, quantity := none }
  else
    match req.quantity with
    | none =>
        { success := true, statusCode := 200, message := "Item removed"
          cartItemId := req.cartItemId, quantity := none }
    | some q =>
        if q ≤ 0 then
          { success := true, statusCode := 200, message := "Item removed"
            cartItemId := req.cartItemId, quantity := none }
        else
          { success := true, statusCode := 200, message := "Item updated"
            cartItemId := req.cartItemId, quantity := some q }

/-! ## Retrieval engine (RRF + MMR)
The hybrid search engine of backend-pylang is documented in the repository
(README, IMPLEMENTATION_SUMMARY) but its Python sources are not present,
so the engine is modelled from the specification.  Real-valued scores are
rationals; the vector similarity is the dot product (the spec allows
cosine "or equivalent monotone similarity"); product ids are naturals so
that tie-breaking by `product_id` is a linear order. -/

/-- Modelled from the spec: the `Product` record of the missing engine
sources (spec section 3). -/
structure EProduct where
  id : Nat
  title : String
  description : String
  category : String
  price : ℚ
  attrs : List (String × String)
  embedding : List ℚ
deriving DecidableEq

/-- Modelled from the spec: whitespace tokenization for lexical indexing. -/
def tokenize (s : String) : List String :=
  (s.splitOn " ").filter (fun t => t ≠ "")

/-- Modelled from the spec: `text_blob`, the concatenation of title,
description and attribute values used for lexical indexing. -/
def textBlob (p : EProduct) : String :=
  p.title ++ " " ++ p.description ++ " " ++
    String.intercalate " " (p.attrs.map Prod.snd)

/-- Modelled from the spec: lexical term-overlap score, the number of
distinct query tokens occurring in the product text blob. -/
def lexScore (qtoks : List String) (p : EProduct) : Nat :=
  (qtoks.dedup.filter (fun t => t ∈ tokenize (textBlob p))).length

/-- Dot product of two embeddings. -/
def dotSim (a b : List ℚ) : ℚ := (List.zipWith (fun x y => x * y) a b).sum

/-- Modelled from the spec: `retrieve_lexical(text, k)` of the missing
Lexical Index - products with positive term overlap, ranked by score
descending with ties by insertion order, truncated to `k`, as ids. -/
def retrieveLexical (state : List EProduct) (text : String) (k : Nat) : List Nat :=
  let qtoks := tokenize text
  let cands := state.enum.filter (fun pr => 0 < lexScore qtoks pr.2)
  let sorted := List.insertionSort
    (fun a b => (toLex (-(lexScore qtoks a.2 : ℚ), a.1) : Lex (ℚ × Nat)) ≤
      toLex (-(lexScore qtoks b.2 : ℚ), b.1)) cands
  (sorted.take k).map (fun pr => pr.2.id)

/-- Modelled from the spec: `retrieve_vector(text, k)` of the missing
Vector Index - embeds the query; on embedding failure returns the empty
list; otherwise ranks products with a non-empty embedding by descending
similarity, ties by insertion order, truncated to `k`, as ids. -/
def retrieveVector (embedder : String → Option (List ℚ)) (state : List EProduct)
    (text : String) (k : Nat) : List Nat :=
  match embedder text with
  | none => []
  | some qv =>
    let cands := state.enum.filter (fun pr => pr.2.embedding ≠ [])
    let sorted := List.insertionSort
      (fun a b => (toLex (-(dotSim qv a.2.embedding), a.1) : Lex (ℚ × Nat)) ≤
        toLex (-(dotSim qv b.2.embedding), b.1)) cands
    (sorted.take k).map (fun pr => pr.2.id)

/-- 1-based rank of an id in a rank list, `none` when absent (the spec
asks for absence as an explicit tagged variant, not a numeric sentinel). -/
def rankOf : List Nat → Nat → Option Nat
  | [], _ => none
  | x :: rest, pid =>
    if x = pid then some 1 else (rankOf rest pid).map (fun r => r + 1)

/-- Modelled from the spec: the reciprocal-rank contribution of one list,
`1 / (k_rrf + rank)`, with absence contributing `0`. -/
def rrfContrib (kR : ℚ) : Option Nat → ℚ
  | none => 0
  | some r => 1 / (kR + r)

/-- Modelled from the spec: the fused RRF score
`α · 1/(k_rrf + lexical_rank) + (1 − α) · 1/(k_rrf + vector_rank)`. -/
def fusedScore (alpha kR : ℚ) (lex vec : List Nat) (pid : Nat) : ℚ :=
  alpha * rrfContrib kR (rankOf lex pid) + (1 - alpha) * rrfContrib kR (rankOf vec pid)

/-- Rank with absence as `+∞`, for tie-breaking. -/
def rankTop (l : List Nat) (pid : Nat) : WithTop Nat :=
  match rankOf l pid with
  | none => ⊤
  | some r => (r : WithTop Nat)

/-- The RRF ordering key: fused score descending, then lower lexical rank,
then lower vector rank, then product id. -/
def rrfKey (alpha kR : ℚ) (lex vec : List Nat) (pid : Nat) :
    Lex (ℚ × Lex (WithTop Nat × Lex (WithTop Nat × Nat))) :=
  toLex (-(fusedScore alpha kR lex vec pid),
    toLex (rankTop lex pid, toLex (rankTop vec pid, pid)))

/-- Modelled from the spec: the Rank Fusion Stage - all candidates of
either input list, sorted by the RRF key. -/
def rrfFuse (alpha kR : ℚ) (lex vec : List Nat) : List Nat :=
  List.insertionSort
    (fun a b => rrfKey alpha kR lex vec a ≤ rrfKey alpha kR lex vec b)
    ((lex ++ vec).dedup)

/-- A per-query MMR candidate: id, cached embedding, fused score. -/
structure MCand where
  id : Nat
  embedding : List ℚ
  fused : ℚ
deriving DecidableEq

/-- `max` of the similarities to the already selected candidates. -/
def maxSim (d : MCand) (selected : List MCand) : ℚ :=
  match selected.map (fun s => dotSim d.embedding s.embedding) with
  | [] => 0
  | x :: xs => xs.foldl max x

/-- Least fused score over the pool. -/
def poolMin (pool : List MCand) : ℚ :=
  match pool.map MCand.fused with
  | [] => 0
  | x :: xs => xs.foldl min x

/-- Greatest fused score over the pool. -/
def poolMax (pool : List MCand) : ℚ :=
  match pool.map MCand.fused with
  | [] => 0
  | x :: xs => xs.foldl max x

/-- Modelled from the spec: `relevance(d)`, the fused score rescaled to
[0,1] by pool min/max (constant pools rescale to 1). -/
def relOf (pool : List MCand) (d : MCand) : ℚ :=
  if poolMax pool = poolMin pool then 1
  else (d.fused - poolMin pool) / (poolMax pool - poolMin pool)

/-- Modelled from the spec: the MMR objective
`λ · relevance(d) − (1 − λ) · max similarity to selected`. -/
def mmrScore (lam : ℚ) (rel : MCand → ℚ) (selected : List MCand) (d : MCand) : ℚ :=
  lam * rel d - (1 - lam) * maxSim d selected

/-- The MMR selection key: highest `mmr`, ties by higher fused score, then
product id. -/
def mmrKey (lam : ℚ) (rel : MCand → ℚ) (selected : List MCand) (d : MCand) :
    Lex (ℚ × Lex (ℚ × Nat)) :=
  toLex (-(mmrScore lam rel selected d), toLex (-(d.fused), d.id))

/-- Select the element with the least key (the best candidate under a
descending key), preferring earlier elements on key ties. -/
def pickMin {α κ : Type} [LinearOrder κ] (key : α → κ) : List α → Option α
  | [] => none
  | d :: rest =>
    match pickMin key rest with
    | none => some d
    | some e => if key d ≤ key e then some d else some e

/-- Modelled from the spec: the greedy MMR selection loop - repeatedly
pick the unselected candidate with the best MMR key, until `limit` are
selected or the pool is exhausted. -/
def mmrLoop (lam : ℚ) (rel : MCand → ℚ) : Nat → List MCand → List MCand → List MCand
  | 0, _, sel => sel
  | n + 1, pool, sel =>
    match pickMin (mmrKey lam rel sel) pool with
    | none => sel
    | some d => mmrLoop lam rel n (pool.erase d) (sel ++ [d])

/-- The seed key: highest fused score, ties by product id. -/
def seedKey (d : MCand) : Lex (ℚ × Nat) := toLex (-(d.fused), d.id)

/-- Modelled from the spec: the Diversification Stage - a pool no larger
than `limit` is returned as-is (skip), otherwise the highest-fused
candidate seeds the greedy MMR loop for the remaining `limit - 1` picks. -/
def mmrDiversify (lam : ℚ) (limit : Nat) (pool : List MCand) : List MCand :=
  if pool.length ≤ limit then pool
  else
    match pickMin seedKey pool with
    | none => []
    | some s => mmrLoop lam (relOf pool) (limit - 1) (pool.erase s) [s]

/-- Modelled from the spec: a search query with the four tunable
parameters of spec section 4 and 6. -/
structure SearchQuery where
  text : String
  filters : List (String × String)
  limit : Int
  diversify : Bool
  alpha : ℚ
  lam : ℚ
  fetchK : Int
  kRrf : ℚ

/-- Modelled from the spec: the error taxonomy entry surfaced to callers
for invalid parameters (spec section 7). -/
inductive SearchError
  | invalidParameter
deriving DecidableEq

/-- The structured facets of a product: its category plus its attributes. -/
def facetPairs (p : EProduct) : List (String × String) :=
  ("category", p.category) :: p.attrs

/-- Modelled from the spec: exact-match facet filtering against the
Attribute Index. -/
def matchesFilters (filters : List (String × String)) (p : EProduct) : Bool :=
  filters.all (fun fv => fv ∈ facetPairs p)

/-- Document-store lookup by id. -/
def lookupProduct (state : List EProduct) (pid : Nat) : Option EProduct :=
  state.find? (fun p => p.id = pid)

/-- Modelled from the spec: the `InvalidParameter` check - α or λ outside
[0,1], `limit ≤ 0`, or `fetch_k < limit`. -/
def invalidParams (q : SearchQuery) : Bool :=
  decide (q.alpha < 0) || decide (1 < q.alpha) || decide (q.lam < 0) ||
    decide (1 < q.lam) || decide (q.limit ≤ 0) || decide (q.fetchK < q.limit)

/-- Modelled from the spec: the Search Orchestrator (spec section 4.4).
Validation happens before any retrieval; filters restrict both retrieved
lists before fusion; diversification runs over the top `fetch_k` fused
candidates when requested, else the top `limit` are taken directly;
finally products are materialized in order. -/
def Orchestrator.search (embedder : String → Option (List ℚ)) (state : List EProduct)
    (q : SearchQuery) : Except SearchError (List EProduct) :=
  if invalidParams q then .error .invalidParameter
  else
    let limit := q.limit.toNat
    let width := if q.diversify then max q.fetchK.toNat limit else limit
    let allowed := (state.filter (matchesFilters q.filters)).map EProduct.id
    let lex := (retrieveLexical state q.text width).filter (fun pid => pid ∈ allowed)
    let vec := (retrieveVector embedder state q.text width).filter (fun pid => pid ∈ allowed)
    let fused := rrfFuse q.alpha q.kRrf lex vec
    let finalIds :=
      if q.diversify then
        (mmrDiversify q.lam limit ((fused.take q.fetchK.toNat).filterMap (fun pid =>
          (lookupProduct state pid).map (fun p =>
            MCand.mk pid p.embedding (fusedScore q.alpha q.kRrf lex vec pid))))).map MCand.id
      else fused.take limit
    .ok (finalIds.filterMap (lookupProduct state))

/-- Modelled from the spec: upsert of one product - replacement by id,
appended in insertion order. -/
def upsertOne (state : List EProduct) (p : EProduct) : List EProduct :=
  (state.filter (fun q2 => q2.id ≠ p.id)) ++ [p]

/-- Modelled from the spec: `upsert(products)` of the Catalog Mutator. -/
def CatalogMutator.upsert (state : List EProduct) (ps : List EProduct) : List EProduct :=
  ps.foldl upsertOne state

/-- Modelled from the spec: `remove(ids)` of the Catalog Mutator. -/
def CatalogMutator.remove (state : List EProduct) (ids : List Nat) : List EProduct :=
  state.filter (fun p => p.id ∉ ids)

/-- A catalog mutation. -/
inductive CatalogOp
  | upsert (ps : List EProduct)
  | remove (ids : List Nat)

/-- Apply one catalog mutation. -/
def applyOp (state : List EProduct) : CatalogOp → List EProduct
  | .upsert ps => CatalogMutator.upsert state ps
  | .remove ids => CatalogMutator.remove state ids

/-- Apply a sequence of catalog mutations. -/
def applyOps (state : List EProduct) (ops : List CatalogOp) : List EProduct :=
  ops.foldl applyOp state

/-- A catalog mutation that never writes a product with the given id
(used to state removal permanence). -/
def opAvoidsId : CatalogOp → Nat → Prop
  | .upsert ps, i => ∀ p ∈ ps, p.id ≠ i
  | .remove _, _ => True

/-- The declarative RRF output order of spec section 4.2: strictly higher
fused score first, ties by lower lexical rank (absence being `+∞`), then
lower vector rank, then product id. -/
def rrfSpecOrder (alpha kR : ℚ) (lex vec : List Nat) (a b : Nat) : Prop :=
  fusedScore alpha kR lex vec b < fusedScore alpha kR lex vec a ∨
    (fusedScore alpha kR lex vec a = fusedScore alpha kR lex vec b ∧
      (rankTop lex a < rankTop lex b ∨
        (rankTop lex a = rankTop lex b ∧
          (rankTop vec a < rankTop vec b ∨
            (rankTop vec a = rankTop vec b ∧ a < b)))))

end EasyMart

namespace EasyMart

/-- Helper: a `foldl` accumulating `s + f i` from `0` is the sum of the map. -/
theorem foldl_add_eq_sum {α : Type} (f : α → ℚ) (l : List α) :
    l.foldl (fun s i => s + f i) 0 = (l.map f).sum := by
  have h : ∀ (init : ℚ), l.foldl (fun s i => s + f i) init = init + (l.map f).sum := by
    induction l with
    | nil => intro init; simp
    | cons a t ih => intro init; simp [List.foldl_cons, ih, add_assoc]
  simpa using h 0

/-- Helper: `jsOrQ (some x) 0 = x`. -/
theorem jsOrQ_some_zero (x : ℚ) : jsOrQ (some x) 0 = x := by
  by_cases h : x = 0 <;> simp [jsOrQ, h]

/-- Helper: every cart produced by `getCart` satisfies the totals invariant. -/
theorem getCart_invariant (cartId : String) (lines : List RawCartLine) :
    cartInvariant (CartService.getCart cartId lines) := by
  constructor
  · show (lines.map normalizeCartLine).foldl (fun s i => s + jsOrQ (some i.quantity) 0) 0 = _
    simp only [jsOrQ_some_zero]
    exact foldl_add_eq_sum _ _
  · show (lines.map normalizeCartLine).foldl
      (fun s i => s + jsOrQ (some i.price) 0 * jsOrQ (some i.quantity) 0) 0 = _
    simp only [jsOrQ_some_zero]
    exact foldl_add_eq_sum _ _

/-- Unfolding `scanItems` on an already-seen id. -/
theorem scanItems_cons_seen {limit : Nat} {p : SFProduct} {rest : List SFProduct}
    {seen : List String} {out : List SFProduct} (h : p.id ∈ seen) :
    scanItems limit (p :: rest) seen out = scanItems limit rest seen out := by
  simp [scanItems, h]

/-- Unfolding `scanItems` on a fresh id that fills the output to `limit`. -/
theorem scanItems_cons_full {limit : Nat} {p : SFProduct} {rest : List SFProduct}
    {seen : List String} {out : List SFProduct} (h : p.id ∉ seen)
    (h2 : limit ≤ (out ++ [p]).length) :
    scanItems limit (p :: rest) seen out = (p.id :: seen, out ++ [p]) := by
  rw [scanItems, if_neg h, if_pos h2]

/-- Unfolding `scanItems` on a fresh id with room to spare. -/
theorem scanItems_cons_go {limit : Nat} {p : SFProduct} {rest : List SFProduct}
    {seen : List String} {out : List SFProduct} (h : p.id ∉ seen)
    (h2 : ¬ limit ≤ (out ++ [p]).length) :
    scanItems limit (p :: rest) seen out =
      scanItems limit rest (p.id :: seen) (out ++ [p]) := by
  rw [scanItems, if_neg h, if_neg h2]

/-- The inner item loop never grows `out` past `limit` (it is entered with
`out.length < limit` and stops as soon as the bound is reached). -/
theorem scanItems_length_le (limit : Nat) (items : List SFProduct) :
    ∀ seen out, out.length < limit →
      (scanItems limit items seen out).2.length ≤ limit := by
  induction items with
  | nil => intro seen out h; exact Nat.le_of_lt h
  | cons p rest ih =>
    intro seen out h
    by_cases hseen : p.id ∈ seen
    · rw [scanItems_cons_seen hseen]; exact ih seen out h
    · by_cases hful : limit ≤ (out ++ [p]).length
      · rw [scanItems_cons_full hseen hful]
        simpa using Nat.succ_le_of_lt h
      · rw [scanItems_cons_go hseen hful]
        exact ih (p.id :: seen) (out ++ [p]) (Nat.lt_of_not_le hful)

/-- Invariant of the inner item loop: `seen` tracks exactly the ids of
`out`, those ids stay duplicate-free, and every output product comes from
the previous output or from the scanned page. -/
theorem scanItems_inv (limit : Nat) (items : List SFProduct) :
    ∀ seen out, (out.map SFProduct.id).Nodup →
      (∀ s, s ∈ seen ↔ s ∈ out.map SFProduct.id) →
      ((scanItems limit items seen out).2.map SFProduct.id).Nodup ∧
        (∀ s, s ∈ (scanItems limit items seen out).1 ↔
          s ∈ (scanItems limit items seen out).2.map SFProduct.id) ∧
        (∀ p, p ∈ (scanItems limit items seen out).2 → p ∈ out ∨ p ∈ items) := by
  induction items with
  | nil =>
    intro seen out hnd hiff
    exact ⟨hnd, hiff, fun p hp => Or.inl hp⟩
  | cons q rest ih =>
    intro seen out hnd hiff
    by_cases hseen : q.id ∈ seen
    · rw [scanItems_cons_seen hseen]
      have h := ih seen out hnd hiff
      exact ⟨h.1, h.2.1, fun p hp =>
        (h.2.2 p hp).imp id (fun h2 => List.mem_cons_of_mem _ h2)⟩
    · have hnotid : q.id ∉ out.map SFProduct.id := fun h => hseen ((hiff q.id).2 h)
      have hnd2 : ((out ++ [q]).map SFProduct.id).Nodup := by
        rw [List.map_append]
        exact List.Nodup.append hnd (List.nodup_singleton _)
          (by intro a ha hb
              rw [List.map_cons, List.map_nil, List.mem_singleton] at hb
              subst hb; exact hnotid ha)
      have hiff2 : ∀ s, s ∈ q.id :: seen ↔ s ∈ (out ++ [q]).map SFProduct.id := by
        intro s
        rw [List.map_append, List.mem_append]
        constructor
        · intro h
          rcases List.mem_cons.1 h with rfl | h
          · exact Or.inr (by simp)
          · exact Or.inl ((hiff s).1 h)
        · intro h
          rcases h with h | h
          · exact List.mem_cons.2 (Or.inr ((hiff s).2 h))
          · rw [List.map_cons, List.map_nil, List.mem_singleton] at h
            exact List.mem_cons.2 (Or.inl h)
      have hmem2 : ∀ p, p ∈ out ++ [q] → p ∈ out ∨ p ∈ q :: rest := by
        intro p hp
        rcases List.mem_append.1 hp with h | h
        · exact Or.inl h
        · rw [List.mem_singleton] at h; subst h
          exact Or.inr (List.mem_cons_self _ _)
      by_cases hful : limit ≤ (out ++ [q]).length
      · rw [scanItems_cons_full hseen hful]
        exact ⟨hnd2, hiff2, hmem2⟩
      · rw [scanItems_cons_go hseen hful]
        have h := ih (q.id :: seen) (out ++ [q]) hnd2 hiff2
        refine ⟨h.1, h.2.1, fun p hp => ?_⟩
        rcases h.2.2 p hp with h2 | h2
        · exact (hmem2 p h2).imp id id
        · exact Or.inr (List.mem_cons_of_mem _ h2)

/-- Unfolding `searchPages` when the output already reached `limit`. -/
theorem searchPages_done {backend : Nat → SearchPage} {limit pageSize fuel page : Nat}
    {seen : List String} {out : List SFProduct} (h : ¬ out.length < limit) :
    searchPages backend limit pageSize (fuel + 1) page seen out = out := by
  rw [searchPages, if_neg h]

/-- Unfolding `searchPages` when the page is empty. -/
theorem searchPages_empty {backend : Nat → SearchPage} {limit pageSize fuel page : Nat}
    {seen : List String} {out : List SFProduct} (h : out.length < limit)
    (h2 : (backend page).results = []) :
    searchPages backend limit pageSize (fuel + 1) page seen out = out := by
  rw [searchPages, if_pos h, if_pos h2]

/-- Unfolding `searchPages` when a break condition fires after scanning. -/
theorem searchPages_stop {backend : Nat → SearchPage} {limit pageSize fuel page : Nat}
    {seen : List String} {out : List SFProduct} (h : out.length < limit)
    (h2 : (backend page).results ≠ []) (h3 : pageStops (backend page) page pageSize = true) :
    searchPages backend limit pageSize (fuel + 1) page seen out =
      (scanItems limit (backend page).results seen out).2 := by
  rw [searchPages, if_pos h, if_neg h2]
  simp only [h3, if_true]

/-- Unfolding `searchPages` when the loop continues to the next page. -/
theorem searchPages_go {backend : Nat → SearchPage} {limit pageSize fuel page : Nat}
    {seen : List String} {out : List SFProduct} (h : out.length < limit)
    (h2 : (backend page).results ≠ []) (h3 : pageStops (backend page) page pageSize = false) :
    searchPages backend limit pageSize (fuel + 1) page seen out =
      searchPages backend limit pageSize fuel (page + 1)
        (scanItems limit (backend page).results seen out).1
        (scanItems limit (backend page).results seen out).2 := by
  rw [searchPages, if_pos h, if_neg h2]
  simp only [h3]
  rfl

/-- Invariant of the pagination loop: the returned list has duplicate-free
ids, length at most `limit`, and all its members come from the initial
accumulator or from some backend page. -/
theorem searchPages_inv (backend : Nat → SearchPage) (limit pageSize : Nat) :
    ∀ fuel page seen out, (out.map SFProduct.id).Nodup →
      (∀ s, s ∈ seen ↔ s ∈ out.map SFProduct.id) → out.length ≤ limit →
      ((searchPages backend limit pageSize fuel page seen out).map SFProduct.id).Nodup ∧
        (searchPages backend limit pageSize fuel page seen out).length ≤ limit ∧
        (∀ p, p ∈ searchPages backend limit pageSize fuel page seen out →
          p ∈ out ∨ ∃ n, p ∈ (backend n).results) := by
  intro fuel
  induction fuel with
  | zero =>
    intro page seen out hnd _ hlen
    exact ⟨hnd, hlen, fun p hp => Or.inl hp⟩
  | succ n ih =>
    intro page seen out hnd hiff hlen
    by_cases hguard : out.length < limit
    · by_cases hempty : (backend page).results = []
      · rw [searchPages_empty hguard hempty]
        exact ⟨hnd, hlen, fun p hp => Or.inl hp⟩
      · have hsc := scanItems_inv limit (backend page).results seen out hnd hiff
        have hsclen := scanItems_length_le limit (backend page).results seen out hguard
        have hfrom : ∀ p, p ∈ (scanItems limit (backend page).results seen out).2 →
            p ∈ out ∨ ∃ m, p ∈ (backend m).results := by
          intro p hp
          rcases hsc.2.2 p hp with h | h
          · exact Or.inl h
          · exact Or.inr ⟨page, h⟩
        cases hstop : pageStops (backend page) page pageSize with
        | true =>
          rw [searchPages_stop hguard hempty hstop]
          exact ⟨hsc.1, hsclen, hfrom⟩
        | false =>
          rw [searchPages_go hguard hempty hstop]
          have hrec := ih (page + 1) (scanItems limit (backend page).results seen out).1
            (scanItems limit (backend page).results seen out).2 hsc.1 hsc.2.1 hsclen
          refine ⟨hrec.1, hrec.2.1, fun p hp => ?_⟩
          rcases hrec.2.2 p hp with h | h
          · exact hfrom p h
          · exact Or.inr h
    · rw [searchPages_done hguard]
      exact ⟨hnd, hlen, fun p hp => Or.inl hp⟩

/-- `searchPages` with no fuel returns the accumulator. -/
theorem searchPages_zero {backend : Nat → SearchPage} {limit pageSize page : Nat}
    {seen : List String} {out : List SFProduct} :
    searchPages backend limit pageSize 0 page seen out = out := rfl

/-- The inner loop keeps exactly the first occurrence of each unseen id,
truncated to the remaining room in `out`. -/
theorem scanItems_eq (limit : Nat) (items : List SFProduct) :
    ∀ seen out, out.length < limit →
      (scanItems limit items seen out).2 =
        out ++ (dedupFirst items seen).take (limit - out.length) := by
  induction items with
  | nil => intro seen out h; simp [scanItems, dedupFirst]
  | cons p rest ih =>
    intro seen out h
    by_cases hseen : p.id ∈ seen
    · rw [scanItems_cons_seen hseen]
      simp only [dedupFirst]
      rw [if_pos hseen]
      exact ih seen out h
    · by_cases hful : limit ≤ (out ++ [p]).length
      · rw [scanItems_cons_full hseen hful]
        have hl : limit - out.length = 1 := by
          simp only [List.length_append, List.length_cons, List.length_nil] at hful
          omega
        simp only [dedupFirst]
        rw [if_neg hseen, hl]
        simp
      · rw [scanItems_cons_go hseen hful]
        have hlt : (out ++ [p]).length < limit := Nat.lt_of_not_le hful
        rw [ih (p.id :: seen) (out ++ [p]) hlt]
        simp only [dedupFirst]
        rw [if_neg hseen]
        have h1 : limit - out.length = (limit - (out ++ [p]).length) + 1 := by
          simp only [List.length_append, List.length_cons, List.length_nil]
          omega
        rw [h1, List.take_succ_cons, List.append_assoc, List.singleton_append]

/-- Against a backend serving the whole catalog as one page, the search is
exactly first-occurrence deduplication truncated to `limit`. -/
theorem search_onePageBackend (L : List SFProduct) (q : String) (limit : Nat) :
    ProductService.search (onePageBackend L) q limit 1 = (dedupFirst L []).take limit := by
  unfold ProductService.search
  by_cases hlim : ([] : List SFProduct).length < limit
  · by_cases hL : L = []
    · subst hL
      rw [searchPages_empty hlim rfl]
      simp [dedupFirst]
    · have hne : ((onePageBackend L q) 1).results ≠ [] := hL
      have heq : (scanItems limit ((onePageBackend L q) 1).results [] []).2 =
          (dedupFirst L []).take limit := by
        have := scanItems_eq limit L [] [] hlim
        simpa using this
      cases hstop : pageStops ((onePageBackend L q) 1) 1 (pageSizeOf limit) with
      | true => rw [searchPages_stop hlim hne hstop]; exact heq
      | false => rw [searchPages_go hlim hne hstop, searchPages_zero]; exact heq
  · have h0 : limit = 0 := by simp at hlim; omega
    subst h0
    rw [searchPages_done hlim]
    simp

/-- C1: for every query, `ProductService.search` returns a list of length
at most the requested `limit`, and at most the number of distinct products
the backend catalog can serve for that query. -/
theorem C1_search_length_bounds (backend : String → Nat → SearchPage) (q : String)
    (limit fuel : Nat) (catalog : Finset String)
    (hcat : ∀ n p, p ∈ (backend q n).results → p.id ∈ catalog) :
    (ProductService.search backend q limit fuel).length ≤ limit ∧
      (ProductService.search backend q limit fuel).length ≤ catalog.card := by
  have hinv := searchPages_inv (backend q) limit (pageSizeOf limit) fuel 1 [] []
    (by simp) (by simp) (Nat.zero_le _)
  refine ⟨hinv.2.1, ?_⟩
  set r := ProductService.search backend q limit fuel with hr
  have hnd : (r.map SFProduct.id).Nodup := hinv.1
  have hsub : (r.map SFProduct.id).toFinset ⊆ catalog := by
    intro s hs
    rw [List.mem_toFinset] at hs
    rcases List.mem_map.1 hs with ⟨p, hp, rfl⟩
    rcases hinv.2.2 p hp with h | ⟨n, h⟩
    · simp at h
    · exact hcat n p h
  calc r.length = (r.map SFProduct.id).length := (List.length_map _ _).symm
    _ = (r.map SFProduct.id).toFinset.card := (List.toFinset_card_of_nodup hnd).symm
    _ ≤ catalog.card := Finset.card_le_card hsub

/-- Witness for C1 at a concrete one-page backend and catalog. -/
theorem C1_search_length_bounds_witness :
    (ProductService.search (fun _ _ => ⟨[⟨"a", "A"⟩], some 1⟩) "chair" 5 3).length ≤ 5 ∧
      (ProductService.search (fun _ _ => ⟨[⟨"a", "A"⟩], some 1⟩) "chair" 5 3).length ≤
        ({"a"} : Finset String).card :=
  C1_search_length_bounds (fun _ _ => ⟨[⟨"a", "A"⟩], some 1⟩) "chair" 5 3 {"a"}
    (by
      intro n p hp
      rw [List.mem_singleton] at hp
      subst hp
      simp)

/-- C8: every `Cart` returned by a `CartService` operation (`getCart`,
`addToCart`, `updateCartItem`, `removeFromCart`) has `totalQuantity` equal
to the sum of its item quantities and `totalPrice` equal to the sum of
price times quantity over its items. -/
theorem C8_cart_operations_invariant :
    (∀ srv buyer, cartInvariant (CartService.getCartOf srv buyer)) ∧
      (∀ srv productId quantity buyer,
        cartInvariant (CartService.addToCart srv productId quantity buyer)) ∧
      (∀ srv cartItemId quantity buyer,
        cartInvariant (CartService.updateCartItem srv cartItemId quantity buyer)) ∧
      (∀ srv cartItemId buyer,
        cartInvariant (CartService.removeFromCart srv cartItemId buyer)) :=
  ⟨fun _ _ => getCart_invariant _ _, fun _ _ _ _ => getCart_invariant _ _,
    fun _ _ _ _ => getCart_invariant _ _, fun _ _ _ => getCart_invariant _ _⟩

/-- C9: `ProductService.search` never returns two products with the same
normalized id, and against a single-page backend it returns exactly the
first occurrence of each id, truncated to `limit`. -/
theorem C9_search_dedup :
    (∀ backend q limit fuel,
      ((ProductService.search backend q limit fuel).map SFProduct.id).Nodup) ∧
      (∀ L q limit,
        ProductService.search (onePageBackend L) q limit 1 = (dedupFirst L []).take limit) := by
  constructor
  · intro backend q limit fuel
    exact (searchPages_inv (backend q) limit (pageSizeOf limit) fuel 1 [] []
      (by simp) (by simp) (Nat.zero_le _)).1
  · intro L q limit
    exact search_onePageBackend L q limit

/-- C10: with a valid (non-blank) `cartItemId`, a null or non-positive
quantity deletes the item (`Item removed`), and only a positive quantity
updates it in place (`Item updated`). -/
theorem C10_updateCartItem_branches (cid : String) (q : Option Int)
    (hvalid : apexIsBlank (some cid) = false) :
    ((q = none ∨ ∃ n, q = some n ∧ n ≤ 0) →
      (CartApi.updateCartItem ⟨some cid, q⟩).message = "Item removed" ∧
        (CartApi.updateCartItem ⟨some cid, q⟩).quantity = none ∧
        (CartApi.updateCartItem ⟨some cid, q⟩).success = true) ∧
      (∀ n, q = some n → 0 < n →
        (CartApi.updateCartItem ⟨some cid, q⟩).message = "Item updated" ∧
          (CartApi.updateCartItem ⟨some cid, q⟩).quantity = some n ∧
          (CartApi.updateCartItem ⟨some cid, q⟩).success = true) := by
  constructor
  · rintro (rfl | ⟨n, rfl, hn⟩)
    · simp [CartApi.updateCartItem, hvalid]
    · simp [CartApi.updateCartItem, hvalid, hn]
  · rintro n rfl hn
    have : ¬ n ≤ 0 := by omega
    simp [CartApi.updateCartItem, hvalid, this]

/-- Sorting by a key into a linear order is sound: the result is sorted
under the key comparison. -/
theorem insertionSort_key_sorted {α β : Type} [LinearOrder β] (f : α → β) (l : List α) :
    List.Sorted (fun a b => f a ≤ f b) (List.insertionSort (fun a b => f a ≤ f b) l) := by
  haveI : IsTotal α (fun a b => f a ≤ f b) := ⟨fun a b => le_total (f a) (f b)⟩
  haveI : IsTrans α (fun a b => f a ≤ f b) := ⟨fun _ _ _ h1 h2 => le_trans h1 h2⟩
  exact List.sorted_insertionSort _ _

/-- The fused output is a permutation of the deduplicated union of the
input lists. -/
theorem rrfFuse_perm (alpha kR : ℚ) (lex vec : List Nat) :
    List.Perm (rrfFuse alpha kR lex vec) ((lex ++ vec).dedup) :=
  List.perm_insertionSort _ _

/-- Membership in the fused output is membership in either input list. -/
theorem rrfFuse_mem (alpha kR : ℚ) (lex vec : List Nat) (pid : Nat) :
    pid ∈ rrfFuse alpha kR lex vec ↔ (pid ∈ lex ∨ pid ∈ vec) := by
  rw [(rrfFuse_perm alpha kR lex vec).mem_iff, List.mem_dedup, List.mem_append]

/-- The fused output has no duplicate ids. -/
theorem rrfFuse_nodup (alpha kR : ℚ) (lex vec : List Nat) :
    (rrfFuse alpha kR lex vec).Nodup :=
  (rrfFuse_perm alpha kR lex vec).nodup_iff.2 (List.nodup_dedup _)

/-- The fused output is sorted under the RRF key. -/
theorem rrfFuse_sorted (alpha kR : ℚ) (lex vec : List Nat) :
    List.Sorted (fun a b => rrfKey alpha kR lex vec a ≤ rrfKey alpha kR lex vec b)
      (rrfFuse alpha kR lex vec) :=
  insertionSort_key_sorted (rrfKey alpha kR lex vec) _

/-- A non-strict key comparison between distinct ids yields the strict
declarative RRF order. -/
theorem rrfKey_le_toSpecOrder (alpha kR : ℚ) (lex vec : List Nat) {a b : Nat}
    (h : rrfKey alpha kR lex vec a ≤ rrfKey alpha kR lex vec b) (hne : a ≠ b) :
    rrfSpecOrder alpha kR lex vec a b := by
  unfold rrfKey at h
  rcases (Prod.Lex.le_iff _ _).1 h with h1 | ⟨h1, h2⟩
  · exact Or.inl (neg_lt_neg_iff.1 h1)
  · refine Or.inr ⟨neg_inj.1 h1, ?_⟩
    rcases (Prod.Lex.le_iff _ _).1 h2 with h3 | ⟨h3, h4⟩
    · exact Or.inl h3
    · refine Or.inr ⟨h3, ?_⟩
      rcases (Prod.Lex.le_iff _ _).1 h4 with h5 | ⟨h5, h6⟩
      · exact Or.inl h5
      · exact Or.inr ⟨h5, lt_of_le_of_ne h6 hne⟩

/-- C2: rank fusion assigns every candidate the RRF formula score (with
absence contributing 0), outputs exactly the candidates of either input
list without duplicates, and sorts them descending by fused score with
ties broken by lower lexical rank, lower vector rank, then product id. -/
theorem C2_rrf_fusion (alpha kR : ℚ) (lex vec : List Nat) :
    (∀ pid, pid ∈ rrfFuse alpha kR lex vec ↔ (pid ∈ lex ∨ pid ∈ vec)) ∧
      (rrfFuse alpha kR lex vec).Nodup ∧
      List.Pairwise (rrfSpecOrder alpha kR lex vec) (rrfFuse alpha kR lex vec) ∧
      (∀ pid, fusedScore alpha kR lex vec pid =
        alpha * rrfContrib kR (rankOf lex pid) +
          (1 - alpha) * rrfContrib kR (rankOf vec pid)) := by
  refine ⟨rrfFuse_mem alpha kR lex vec, rrfFuse_nodup alpha kR lex vec, ?_, fun _ => rfl⟩
  have hs := rrfFuse_sorted alpha kR lex vec
  have hn := rrfFuse_nodup alpha kR lex vec
  have hp := List.Pairwise.and hs hn
  exact hp.imp (fun h => rrfKey_le_toSpecOrder alpha kR lex vec h.1 h.2)

/-- `pickMin` returns an element of its input. -/
theorem pickMin_mem {α κ : Type} [LinearOrder κ] (key : α → κ) :
    ∀ (l : List α) (e : α), pickMin key l = some e → e ∈ l := by
  intro l
  induction l with
  | nil => intro e h; simp [pickMin] at h
  | cons d rest ih =>
    intro e h
    rcases hr : pickMin key rest with _ | f
    · simp only [pickMin, hr] at h
      simp at h
      subst h
      exact List.mem_cons_self _ _
    · simp only [pickMin, hr] at h
      by_cases hle : key d ≤ key f
      · rw [if_pos hle] at h
        simp at h
        subst h
        exact List.mem_cons_self _ _
      · rw [if_neg hle] at h
        simp at h
        subst h
        exact List.mem_cons_of_mem _ (ih f hr)

/-- `pickMin` returns the head when the head's key is least. -/
theorem pickMin_head {α κ : Type} [LinearOrder κ] (key : α → κ) (d : α) (rest : List α)
    (h : ∀ e ∈ rest, key d ≤ key e) : pickMin key (d :: rest) = some d := by
  rcases hr : pickMin key rest with _ | f
  · simp only [pickMin, hr]
  · simp only [pickMin, hr]
    rw [if_pos (h f (pickMin_mem key rest f hr))]

/-- The base element bounds a `foldl max`. -/
theorem le_foldl_max : ∀ (xs : List ℚ) (x : ℚ), x ≤ xs.foldl max x
  | [], x => le_refl x
  | y :: ys, x => le_trans (le_max_left x y) (le_foldl_max ys (max x y))

/-- Every member bounds a `foldl max`. -/
theorem mem_le_foldl_max : ∀ (xs : List ℚ) (x y : ℚ), y ∈ xs → y ≤ xs.foldl max x := by
  intro xs
  induction xs with
  | nil => intro x y h; simp at h
  | cons z zs ih =>
    intro x y h
    rcases List.mem_cons.1 h with rfl | h
    · exact le_trans (le_max_right x y) (le_foldl_max zs (max x y))
    · exact ih (max x z) y h

/-- A `foldl min` is bounded by the base element. -/
theorem foldl_min_le : ∀ (xs : List ℚ) (x : ℚ), xs.foldl min x ≤ x
  | [], x => le_refl x
  | y :: ys, x => le_trans (foldl_min_le ys (min x y)) (min_le_left x y)

/-- A `foldl min` is bounded by every member. -/
theorem foldl_min_le_mem : ∀ (xs : List ℚ) (x y : ℚ), y ∈ xs → xs.foldl min x ≤ y := by
  intro xs
  induction xs with
  | nil => intro x y h; simp at h
  | cons z zs ih =>
    intro x y h
    rcases List.mem_cons.1 h with rfl | h
    · exact le_trans (foldl_min_le zs (min x y)) (min_le_right x y)
    · exact ih (min x z) y h

/-- Every pool member's fused score is at most the pool maximum. -/
theorem le_poolMax {pool : List MCand} {d : MCand} (h : d ∈ pool) :
    d.fused ≤ poolMax pool := by
  unfold poolMax
  rcases hm : pool.map MCand.fused with _ | ⟨x, xs⟩
  · rw [List.map_eq_nil_iff] at hm; subst hm; simp at h
  · have hdm : d.fused ∈ pool.map MCand.fused := List.mem_map_of_mem _ h
    rw [hm] at hdm
    rcases List.mem_cons.1 hdm with heq | hmem
    · rw [heq]; exact le_foldl_max xs x
    · exact mem_le_foldl_max xs x _ hmem

/-- The pool minimum is at most every pool member's fused score. -/
theorem poolMin_le {pool : List MCand} {d : MCand} (h : d ∈ pool) :
    poolMin pool ≤ d.fused := by
  unfold poolMin
  rcases hm : pool.map MCand.fused with _ | ⟨x, xs⟩
  · rw [List.map_eq_nil_iff] at hm; subst hm; simp at h
  · have hdm : d.fused ∈ pool.map MCand.fused := List.mem_map_of_mem _ h
    rw [hm] at hdm
    rcases List.mem_cons.1 hdm with heq | hmem
    · rw [heq]; exact foldl_min_le xs x
    · exact foldl_min_le_mem xs x _ hmem

/-- On a pool whose min and max differ, the normalized relevance is
strictly monotone in the fused score. -/
theorem relOf_strictMono {pool : List MCand} (h : poolMin pool < poolMax pool)
    {a b : MCand} (hab : a.fused < b.fused) : relOf pool a < relOf pool b := by
  unfold relOf
  rw [if_neg (ne_of_gt h), if_neg (ne_of_gt h)]
  exact (div_lt_div_iff_of_pos_right (sub_pos.2 h)).2 (sub_lt_sub_right hab _)

/-- With λ = 1 the MMR objective collapses to the relevance term. -/
theorem mmrScore_one (rel : MCand → ℚ) (sel : List MCand) (d : MCand) :
    mmrScore 1 rel sel d = rel d := by
  unfold mmrScore; ring

/-- With λ = 1 and a relevance strictly monotone in the fused score, the
greedy loop walks a strictly descending pool in order. -/
theorem mmrLoop_one (rel : MCand → ℚ)
    (hrel : ∀ a b : MCand, a.fused < b.fused → rel a < rel b) :
    ∀ (n : Nat) (pool sel : List MCand),
      List.Pairwise (fun a b => b.fused < a.fused) pool →
      mmrLoop 1 rel n pool sel = sel ++ pool.take n := by
  intro n
  induction n with
  | zero => intro pool sel _; simp [mmrLoop]
  | succ m ih =>
    intro pool sel hp
    cases pool with
    | nil => simp [mmrLoop, pickMin]
    | cons d rest =>
      have hhead : pickMin (mmrKey 1 rel sel) (d :: rest) = some d := by
        apply pickMin_head
        intro e he
        have hlt : e.fused < d.fused := (List.pairwise_cons.1 hp).1 e he
        have hrlt : rel e < rel d := hrel e d hlt
        apply le_of_lt
        unfold mmrKey
        rw [mmrScore_one, mmrScore_one]
        exact (Prod.Lex.lt_iff _ _).mpr (Or.inl (neg_lt_neg_iff.2 hrlt))
      rw [mmrLoop]
      rw [hhead]
      simp only [List.erase_cons_head]
      rw [ih rest (sel ++ [d]) (List.pairwise_cons.1 hp).2]
      rw [List.take_succ_cons, List.append_assoc, List.singleton_append]

/-- C4: a pool no larger than `limit` passes through diversification
unchanged, in its incoming fused-score order. -/
theorem C4_mmr_small_pool_noop (lam : ℚ) (limit : Nat) (pool : List MCand)
    (h : pool.length ≤ limit) : mmrDiversify lam limit pool = pool := by
  unfold mmrDiversify
  rw [if_pos h]

/-- Witness for C4 at a singleton pool. -/
theorem C4_mmr_small_pool_noop_witness :
    ([(⟨0, [1], 1⟩ : MCand)].length ≤ 1) ∧
      mmrDiversify 1 1 [(⟨0, [1], 1⟩ : MCand)] = [(⟨0, [1], 1⟩ : MCand)] :=
  ⟨by decide, C4_mmr_small_pool_noop 1 1 [⟨0, [1], 1⟩] (by decide)⟩

/-- C3 counterexample: on a pool with a fused-score tie, λ = 1
diversification orders the tied candidates by product id while the
top-`limit` prefix keeps the fused (lexical-rank) order, so the two
disagree. -/
theorem C3_lambda_one_counterexample :
    mmrDiversify 1 2 [⟨0, [1], 2⟩, ⟨2, [1], 1⟩, ⟨1, [1], 1⟩] ≠
      ([⟨0, [1], 2⟩, ⟨2, [1], 1⟩, ⟨1, [1], 1⟩] : List MCand).take 2 := by
  have h1 : mmrDiversify 1 2 [⟨0, [1], 2⟩, ⟨2, [1], 1⟩, ⟨1, [1], 1⟩] =
      [⟨0, [1], 2⟩, ⟨1, [1], 1⟩] := by
    norm_num [mmrDiversify, mmrLoop, pickMin, mmrKey, mmrScore, relOf, poolMax, poolMin,
      maxSim, dotSim, seedKey, Prod.Lex.le_iff, List.erase]
  rw [h1]
  simp

/-- C3 amended: when the pool carries pairwise distinct fused scores (it
arrives sorted strictly descending from rank fusion) and `limit ≥ 1`,
λ = 1 diversification returns exactly the top-`limit` prefix by fused
score - the same set and order as skipping diversification. -/
theorem C3_lambda_one_amended (limit : Nat) (pool : List MCand)
    (hsorted : List.Pairwise (fun a b => b.fused < a.fused) pool)
    (hlim : 0 < limit) :
    mmrDiversify 1 limit pool = pool.take limit := by
  by_cases hle : pool.length ≤ limit
  · unfold mmrDiversify
    rw [if_pos hle, List.take_of_length_le hle]
  · unfold mmrDiversify
    rw [if_neg hle]
    cases pool with
    | nil => simp at hle
    | cons d rest =>
      cases rest with
      | nil =>
        exfalso
        apply hle
        simpa using hlim
      | cons e rest2 =>
        have hde : e.fused < d.fused :=
          (List.pairwise_cons.1 hsorted).1 e (List.mem_cons_self _ _)
        have hrange : poolMin (d :: e :: rest2) < poolMax (d :: e :: rest2) :=
          lt_of_le_of_lt (poolMin_le (List.mem_cons_of_mem _ (List.mem_cons_self _ _)))
            (lt_of_lt_of_le hde (le_poolMax (List.mem_cons_self _ _)))
        have hseed : pickMin seedKey (d :: e :: rest2) = some d := by
          apply pickMin_head
          intro f hf
          have hlt : f.fused < d.fused := (List.pairwise_cons.1 hsorted).1 f hf
          apply le_of_lt
          unfold seedKey
          exact (Prod.Lex.lt_iff _ _).mpr (Or.inl (neg_lt_neg_iff.2 hlt))
        rw [hseed]
        simp only [List.erase_cons_head]
        rw [mmrLoop_one (relOf (d :: e :: rest2)) (fun a b hab => relOf_strictMono hrange hab)
          (limit - 1) (e :: rest2) [d] (List.pairwise_cons.1 hsorted).2]
        obtain ⟨m, rfl⟩ : ∃ m, limit = m + 1 := ⟨limit - 1, (Nat.succ_pred_eq_of_pos hlim).symm⟩
        rw [List.take_succ_cons, Nat.add_sub_cancel, List.singleton_append]

/-- Witness for C3's amended claim at a concrete strictly-descending pool. -/
theorem C3_lambda_one_amended_witness :
    List.Pairwise (fun a b : MCand => b.fused < a.fused)
        [⟨0, [1], 3⟩, ⟨1, [1], 2⟩, ⟨2, [1], 1⟩] ∧ 0 < 2 ∧
      mmrDiversify 1 2 [⟨0, [1], 3⟩, ⟨1, [1], 2⟩, ⟨2, [1], 1⟩] =
        ([⟨0, [1], 3⟩, ⟨1, [1], 2⟩, ⟨2, [1], 1⟩] : List MCand).take 2 :=
  ⟨by norm_num [List.pairwise_cons], by decide,
    C3_lambda_one_amended 2 [⟨0, [1], 3⟩, ⟨1, [1], 2⟩, ⟨2, [1], 1⟩]
      (by norm_num [List.pairwise_cons]) (by decide)⟩

/-- C5: a search call with α or λ outside [0,1], limit ≤ 0, or
fetch_k < limit is rejected synchronously as `InvalidParameter`, for every
index state and every embedder - no retrieval work influences the answer,
and the (read-only) index state is untouched. -/
theorem C5_invalid_params_rejected (embedder : String → Option (List ℚ))
    (state : List EProduct) (q : SearchQuery)
    (h : q.alpha < 0 ∨ 1 < q.alpha ∨ q.lam < 0 ∨ 1 < q.lam ∨
      q.limit ≤ 0 ∨ q.fetchK < q.limit) :
    Orchestrator.search embedder state q = Except.error SearchError.invalidParameter := by
  have hb : invalidParams q = true := by
    rcases h with h | h | h | h | h | h <;> simp [invalidParams, h]
  unfold Orchestrator.search
  rw [if_pos hb]

/-- Witness for C5 at a concrete query with `limit = 0`. -/
theorem C5_invalid_params_rejected_witness :
    Orchestrator.search (fun _ => none) [] ⟨"", [], 0, false, 1, 1, 1, 60⟩ =
      Except.error SearchError.invalidParameter :=
  C5_invalid_params_rejected (fun _ => none) [] ⟨"", [], 0, false, 1, 1, 1, 60⟩
    (Or.inr (Or.inr (Or.inr (Or.inr (Or.inl (by decide))))))

/-- After `remove([i])` no product left in the store carries id `i`. -/
theorem remove_kills_id (state : List EProduct) (i : Nat) :
    ∀ p ∈ CatalogMutator.remove state [i], p.id ≠ i := by
  intro p hp
  unfold CatalogMutator.remove at hp
  have h := (List.mem_filter.1 hp).2
  simp at h
  exact h

/-- Upserting a product with a different id preserves id absence. -/
theorem upsertOne_avoid {state : List EProduct} {p : EProduct} {i : Nat}
    (hstate : ∀ r ∈ state, r.id ≠ i) (hp : p.id ≠ i) :
    ∀ r ∈ upsertOne state p, r.id ≠ i := by
  intro r hr
  unfold upsertOne at hr
  rcases List.mem_append.1 hr with h | h
  · exact hstate r (List.mem_of_mem_filter h)
  · rw [List.mem_singleton] at h
    subst h
    exact hp

/-- A batch upsert of products with different ids preserves id absence. -/
theorem upsert_avoid (i : Nat) :
    ∀ (ps : List EProduct) (state : List EProduct), (∀ r ∈ state, r.id ≠ i) →
      (∀ p ∈ ps, p.id ≠ i) → ∀ r ∈ CatalogMutator.upsert state ps, r.id ≠ i := by
  intro ps
  induction ps with
  | nil => intro state hstate _ r hr; exact hstate r hr
  | cons p rest ih =>
    intro state hstate hps r hr
    have h1 : ∀ r2 ∈ upsertOne state p, r2.id ≠ i :=
      upsertOne_avoid hstate (hps p (List.mem_cons_self _ _))
    exact ih (upsertOne state p) h1 (fun p2 hp2 => hps p2 (List.mem_cons_of_mem _ hp2)) r hr

/-- A sequence of mutations that never writes id `i` preserves its
absence from the store. -/
theorem applyOps_avoid (i : Nat) :
    ∀ (ops : List CatalogOp) (state : List EProduct), (∀ r ∈ state, r.id ≠ i) →
      (∀ op ∈ ops, opAvoidsId op i) → ∀ r ∈ applyOps state ops, r.id ≠ i := by
  intro ops
  induction ops with
  | nil => intro state hstate _ r hr; exact hstate r hr
  | cons op rest ih =>
    intro state hstate hops r hr
    have h1 : ∀ r2 ∈ applyOp state op, r2.id ≠ i := by
      cases op with
      | upsert ps =>
        exact upsert_avoid i ps state hstate (hops (CatalogOp.upsert ps) (List.mem_cons_self _ _))
      | remove ids =>
        intro r2 hr2
        exact hstate r2 (List.mem_of_mem_filter hr2)
    exact ih (applyOp state op) h1 (fun op2 hop2 => hops op2 (List.mem_cons_of_mem _ hop2)) r hr

/-- Materialized results come from the document store. -/
theorem mem_filterMap_lookup (state : List EProduct) (ids : List Nat) :
    ∀ r ∈ ids.filterMap (lookupProduct state), r ∈ state := by
  intro r hr
  rcases List.mem_filterMap.1 hr with ⟨pid, _, hfind⟩
  exact List.mem_of_find?_eq_some hfind

/-- Every product returned by a successful search is in the document
store the search ran against. -/
theorem search_result_mem (embedder : String → Option (List ℚ)) (state : List EProduct)
    (q : SearchQuery) (l : List EProduct)
    (h : Orchestrator.search embedder state q = Except.ok l) :
    ∀ r ∈ l, r ∈ state := by
  unfold Orchestrator.search at h
  by_cases hval : invalidParams q
  · rw [if_pos hval] at h
    exact absurd h (by simp)
  · rw [if_neg hval] at h
    simp only [Except.ok.injEq] at h
    subst h
    exact mem_filterMap_lookup state _

/-- C7: after `remove([i])`, the product id `i` never appears in the
result of any later search, under any query and filters, as long as no
later mutation re-introduces that id. -/
theorem C7_removed_id_never_returned (embedder : String → Option (List ℚ))
    (state : List EProduct) (i : Nat) (ops : List CatalogOp) (q : SearchQuery)
    (l : List EProduct)
    (hops : ∀ op ∈ ops, opAvoidsId op i)
    (hsearch : Orchestrator.search embedder
      (applyOps (CatalogMutator.remove state [i]) ops) q = Except.ok l) :
    ∀ r ∈ l, r.id ≠ i := by
  intro r hr
  have hmem := search_result_mem _ _ _ _ hsearch r hr
  exact applyOps_avoid i ops (CatalogMutator.remove state [i])
    (remove_kills_id state i) hops r hmem

/-- Witness for C7: from a one-product store, removing that product makes
the (valid) search return the empty list, which indeed never contains the
removed id. -/
theorem C7_removed_id_never_returned_witness :
    (∀ op ∈ ([] : List CatalogOp), opAvoidsId op 7) ∧
      Orchestrator.search (fun _ => none)
        (applyOps (CatalogMutator.remove [⟨7, "t", "d", "c", 0, [], [1]⟩] [7]) [])
        ⟨"", [], 1, false, 1, 1, 1, 60⟩ = Except.ok [] ∧
      (∀ r ∈ ([] : List EProduct), r.id ≠ 7) :=
  ⟨fun op hop => absurd hop (List.not_mem_nil op), rfl,
    C7_removed_id_never_returned (fun _ => none) [⟨7, "t", "d", "c", 0, [], [1]⟩] 7 []
      ⟨"", [], 1, false, 1, 1, 1, 60⟩ [] (fun op hop => absurd hop (List.not_mem_nil op)) rfl⟩

/-- On query-embedding failure the Vector Index returns the empty list. -/
theorem retrieveVector_none (embedder : String → Option (List ℚ)) (state : List EProduct)
    (text : String) (k : Nat) (h : embedder text = none) :
    retrieveVector embedder state text k = [] := by
  simp [retrieveVector, h]

/-- In a duplicate-free rank list, the element at position `i` has 1-based
rank `i + 1`. -/
theorem rankOf_getElem :
    ∀ (l : List Nat), l.Nodup → ∀ (i : Nat) (hi : i < l.length),
      rankOf l (l.get ⟨i, hi⟩) = some (i + 1) := by
  intro l
  induction l with
  | nil => intro _ i hi; simp at hi
  | cons a t ih =>
    intro hnd i hi
    cases i with
    | zero => simp [rankOf]
    | succ j =>
      have hj : j < t.length := by simpa using hi
      have hne : a ≠ t.get ⟨j, hj⟩ := by
        intro heq
        exact (List.nodup_cons.1 hnd).1 (heq ▸ List.get_mem t j hj)
      show rankOf (a :: t) (t.get ⟨j, hj⟩) = some (j + 1 + 1)
      rw [rankOf, if_neg hne, ih (List.nodup_cons.1 hnd).2 j hj]
      rfl

/-- The fused score against an empty vector list is the weighted lexical
reciprocal rank alone. -/
theorem fusedScore_nil_vec (alpha kR : ℚ) (lex : List Nat) (pid : Nat) :
    fusedScore alpha kR lex [] pid = alpha * rrfContrib kR (rankOf lex pid) := by
  unfold fusedScore
  rw [show rankOf ([] : List Nat) pid = none from rfl]
  simp [rrfContrib]

/-- Fusing a duplicate-free lexical list with an empty vector list leaves
the lexical ranking unchanged (for `α, k_rrf ≥ 0`): reciprocal-rank scores
are non-increasing along the list and the lexical-rank tie-break keeps the
original order when α = 0 flattens all scores. -/
theorem rrfFuse_nil_vec (alpha kR : ℚ) (lex : List Nat) (hnd : lex.Nodup)
    (halpha : 0 ≤ alpha) (hk : 0 ≤ kR) : rrfFuse alpha kR lex [] = lex := by
  unfold rrfFuse
  rw [List.append_nil, List.dedup_eq_self.2 hnd]
  apply List.Sorted.insertionSort_eq
  rw [List.Sorted, List.pairwise_iff_get]
  intro i j hij
  have hranki : rankOf lex (lex.get i) = some (i.1 + 1) := rankOf_getElem lex hnd i.1 i.2
  have hrankj : rankOf lex (lex.get j) = some (j.1 + 1) := rankOf_getElem lex hnd j.1 j.2
  have hposi : (0 : ℚ) < kR + (i.1 + 1 : Nat) := by
    have : (0 : ℚ) < ((i.1 + 1 : Nat) : ℚ) := by positivity
    linarith
  have hposj : (0 : ℚ) < kR + (j.1 + 1 : Nat) := by
    have : (0 : ℚ) < ((j.1 + 1 : Nat) : ℚ) := by positivity
    linarith
  have hle : kR + (i.1 + 1 : Nat) ≤ kR + (j.1 + 1 : Nat) := by
    have : ((i.1 + 1 : Nat) : ℚ) ≤ ((j.1 + 1 : Nat) : ℚ) := by
      exact_mod_cast Nat.succ_le_succ (le_of_lt hij)
    linarith
  have hscore : fusedScore alpha kR lex [] (lex.get j) ≤ fusedScore alpha kR lex [] (lex.get i) := by
    rw [fusedScore_nil_vec, fusedScore_nil_vec, hranki, hrankj]
    unfold rrfContrib
    exact mul_le_mul_of_nonneg_left (one_div_le_one_div_of_le hposi hle) halpha
  have htopi : rankTop lex (lex.get i) = ((i.1 + 1 : Nat) : WithTop Nat) := by
    unfold rankTop
    rw [hranki]
  have htopj : rankTop lex (lex.get j) = ((j.1 + 1 : Nat) : WithTop Nat) := by
    unfold rankTop
    rw [hrankj]
  unfold rrfKey
  rcases lt_or_eq_of_le hscore with hlt | heq
  · exact (Prod.Lex.le_iff _ _).2 (Or.inl (neg_lt_neg_iff.2 hlt))
  · refine (Prod.Lex.le_iff _ _).2 (Or.inr ⟨by rw [heq], ?_⟩)
    refine (Prod.Lex.le_iff _ _).2 (Or.inl ?_)
    show rankTop lex (lex.get i) < rankTop lex (lex.get j)
    rw [htopi, htopj]
    exact_mod_cast Nat.succ_lt_succ hij

/-- The ids produced by ranking, truncating and projecting a filtered
enumeration of a duplicate-free store are duplicate-free. -/
theorem sorted_take_ids_nodup (r : Nat × EProduct → Nat × EProduct → Prop)
    [DecidableRel r] (p : Nat × EProduct → Bool) (state : List EProduct) (k : Nat)
    (h : (state.map EProduct.id).Nodup) :
    (((List.insertionSort r (state.enum.filter p)).take k).map
      (fun pr => pr.2.id)).Nodup := by
  have henum : (state.enum.map (fun pr => pr.2.id)) = state.map EProduct.id := by
    rw [show (fun pr : Nat × EProduct => pr.2.id) = EProduct.id ∘ Prod.snd from rfl,
      ← List.map_map, List.enum_map_snd]
  have hsub : List.Sublist ((state.enum.filter p).map (fun pr => pr.2.id))
      (state.enum.map (fun pr => pr.2.id)) :=
    List.Sublist.map _ (List.filter_sublist _)
  have hfil : ((state.enum.filter p).map (fun pr => pr.2.id)).Nodup :=
    List.Nodup.sublist hsub (by rw [henum]; exact h)
  have hperm : List.Perm ((List.insertionSort r (state.enum.filter p)).map
      (fun pr => pr.2.id)) ((state.enum.filter p).map (fun pr => pr.2.id)) :=
    List.Perm.map _ (List.perm_insertionSort r _)
  have hsorted : ((List.insertionSort r (state.enum.filter p)).map
      (fun pr => pr.2.id)).Nodup := hperm.nodup_iff.2 hfil
  rw [List.map_take]
  exact List.Nodup.sublist (List.take_sublist _ _) hsorted

/-- Lexical retrieval returns duplicate-free ids over a duplicate-free
store. -/
theorem retrieveLexical_nodup (state : List EProduct) (text : String) (k : Nat)
    (h : (state.map EProduct.id).Nodup) : (retrieveLexical state text k).Nodup := by
  unfold retrieveLexical
  exact sorted_take_ids_nodup _ _ state k h

/-- C6: for every valid query whose text fails to embed - diversifying or
not - the Vector Index contributes the empty list, and the search still
succeeds with exactly the lexical-only results: the remaining pipeline
(filtering, truncation, and MMR over the cached product embeddings when
`diversify` is set) runs on the lexical ranking alone, with the fused list
provably equal to the filtered lexical list.  The embedding failure is
never surfaced to the caller as an error. -/
theorem C6_embedding_failure_degrades (embedder : String → Option (List ℚ))
    (state : List EProduct) (q : SearchQuery)
    (hembed : embedder q.text = none)
    (hvalid : invalidParams q = false)
    (hk : 0 ≤ q.kRrf)
    (hids : (state.map EProduct.id).Nodup) :
    (∀ k, retrieveVector embedder state q.text k = []) ∧
      Orchestrator.search embedder state q =
        Except.ok
          (let limit := q.limit.toNat
           let width := if q.diversify then max q.fetchK.toNat limit else limit
           let lexF := (retrieveLexical state q.text width).filter
             (fun pid => pid ∈ (state.filter (matchesFilters q.filters)).map EProduct.id)
           let finalIds :=
             if q.diversify then
               (mmrDiversify q.lam limit ((lexF.take q.fetchK.toNat).filterMap (fun pid =>
                 (lookupProduct state pid).map (fun p =>
                   MCand.mk pid p.embedding
                     (fusedScore q.alpha q.kRrf lexF [] pid))))).map MCand.id
             else lexF.take limit
           finalIds.filterMap (lookupProduct state)) := by
  have halpha : 0 ≤ q.alpha := by
    by_contra hc
    push_neg at hc
    simp [invalidParams, hc] at hvalid
  have hnodup : ((retrieveLexical state q.text
      (if q.diversify then max q.fetchK.toNat q.limit.toNat else q.limit.toNat)).filter
      (fun pid => pid ∈ (state.filter (matchesFilters q.filters)).map EProduct.id)).Nodup :=
    List.Nodup.filter _ (retrieveLexical_nodup state q.text _ hids)
  refine ⟨fun k => retrieveVector_none embedder state q.text k hembed, ?_⟩
  unfold Orchestrator.search
  rw [if_neg (by simp [hvalid])]
  dsimp only
  rw [retrieveVector_none embedder state q.text _ hembed, List.filter_nil,
    rrfFuse_nil_vec q.alpha q.kRrf _ hnodup halpha hk]

/-- Witness for C6 at a diversifying query over the empty catalog with an
always-failing embedder. -/
theorem C6_embedding_failure_degrades_witness :
    (∀ k, retrieveVector (fun _ => none) [] "" k = []) ∧
      Orchestrator.search (fun _ => none) [] ⟨"", [], 1, true, 1, 1, 1, 60⟩ =
        Except.ok
          (let limit := (1 : Int).toNat
           let width := if true then max (1 : Int).toNat limit else limit
           let lexF := (retrieveLexical [] "" width).filter
             (fun pid => pid ∈ (List.filter (matchesFilters []) []).map EProduct.id)
           let finalIds :=
             if true then
               (mmrDiversify 1 limit ((lexF.take (1 : Int).toNat).filterMap (fun pid =>
                 (lookupProduct [] pid).map (fun p =>
                   MCand.mk pid p.embedding (fusedScore 1 60 lexF [] pid))))).map MCand.id
             else lexF.take limit
           finalIds.filterMap (lookupProduct [])) :=
  C6_embedding_failure_degrades (fun _ => none) [] ⟨"", [], 1, true, 1, 1, 1, 60⟩
    rfl (by decide) (by decide) (by simp)

/-- Witness for C10 at concrete requests: quantity 0 removes, quantity 3
updates. -/
theorem C10_updateCartItem_branches_witness :
    ((CartApi.updateCartItem ⟨some "item1", some 0⟩).message = "Item removed" ∧
        (CartApi.updateCartItem ⟨some "item1", some 0⟩).quantity = none ∧
        (CartApi.updateCartItem ⟨some "item1", some 0⟩).success = true) ∧
      ((CartApi.updateCartItem ⟨some "item1", some 3⟩).message = "Item updated" ∧
        (CartApi.updateCartItem ⟨some "item1", some 3⟩).quantity = some 3 ∧
        (CartApi.updateCartItem ⟨some "item1", some 3⟩).success = true) :=
  ⟨(C10_updateCartItem_branches "item1" (some 0) (by decide)).1
      (Or.inr ⟨0, rfl, le_refl 0⟩),
    (C10_updateCartItem_branches "item1" (some 3) (by decide)).2 3 rfl (by omega)⟩

end EasyMart
